import Mathlib

/-!
Verification of the `co_managed` crate (src/lib.rs) against its design
specification.  The crate manages "sub coroutines" through a concurrent
id -> handle map (a `congee` tree storing raw `Arc` pointers as `usize`),
with monotonic id allocation in `Manager::add`/`add_unsafe`, batched bulk
cancellation in `CoMap::cancel_all`, a drain loop in `Manager::drop`, and
self-removal plus join in `SubCo::drop`.

Modelling choices: `usize` is `Nat` (overflow is irrelevant to the claims),
the concurrent map is an association list with pairwise-distinct keys, the
registry side effects of each routine are recorded as an explicit `RegOp`
trace, `Arc` strong counts form a `Nat`-valued heap indexed by address, and
the spawn/insert vs. child-teardown race of `Manager::add` is an explicit
two-thread interleaving machine.
-/

namespace CoManaged

/-- Registry contents: association list from coroutine id to the raw
pointer value (`usize`) that the `congee` tree stores for it. -/
abbrev CoMap := List (Nat × Nat)

/-- The ids present in the registry. -/
def CoMap.keys (m : CoMap) : List Nat := m.map Prod.fst

/-- Model of `CoMap::remove`: `congee` removes the key and returns the
stored value when the key is present; when absent it returns `None` and
leaves the map unchanged. -/
def CoMap.remove (m : CoMap) (id : Nat) : CoMap × Option Nat :=
  match m.lookup id with
  | some h => (m.filter (fun e => e.1 != id), some h)
  | none => (m, none)

/-- Model of `CoMap::is_empty`. -/
def CoMap.is_empty (m : CoMap) : Bool := m.isEmpty

/-- The registry operations the crate performs, recorded as an explicit
effect trace: map writes (`insert`, `remove`) and coroutine effects
(`cancel`, `join`) which never touch the map. -/
inductive RegOp where
  | insert (id h : Nat)
  | remove (id : Nat)
  | cancel (id : Nat)
  | join (id : Nat)
deriving DecidableEq, Repr

/-- Effect of one recorded operation on the registry. -/
def applyOp (m : CoMap) : RegOp → CoMap
  | .insert id h => (id, h) :: m
  | .remove id => m.filter (fun e => e.1 != id)
  | .cancel _ => m
  | .join _ => m

/-- Recognises the operations `cancel_all` is allowed to perform. -/
def isCancelOp : RegOp → Bool
  | .cancel _ => true
  | _ => false

/-- The constant `MAX_LEN` of `CoMap::cancel_all`: the 64-slot scan buffer
`ids`. -/
def MAX_LEN : Nat := 64

/-- Model of `Congee::range(&start, &stop, &mut ids, &guard)` as used by
`cancel_all`: the live entries with id in `[start, stop)`, truncated to the
64-slot buffer (`range` fills at most `ids.len()` entries). -/
def CoMap.range (m : CoMap) (start stop : Nat) : CoMap :=
  (m.filter (fun e => decide (start ≤ e.1) && decide (e.1 < stop))).take MAX_LEN

/-- Model of `CoMap::cancel_all(max)`.  Returns the final map and the trace
of operations performed.  Faithful to the source loop: the scan cursor
`stop` (`end` in the source) starts at `max`; while `stop > 0`: return
early when the map is empty, scan `[start, stop)` with
`start = stop.max(MAX_LEN) - MAX_LEN`, issue a cancel for every handle
found, then shrink `stop` by `stop.min(MAX_LEN)`. -/
def CoMap.cancel_all (m : CoMap) (stop : Nat) : CoMap × List RegOp :=
  if stop = 0 then (m, [])
  else if CoMap.is_empty m then (m, [])
  else
    let start := max stop MAX_LEN - MAX_LEN
    let ops := (CoMap.range m start stop).map (fun e => RegOp.cancel e.1)
    let m1 := ops.foldl applyOp m
    let next := CoMap.cancel_all m1 (stop - min stop MAX_LEN)
    (next.1, ops ++ next.2)
termination_by stop
decreasing_by
  simp only [MAX_LEN]
  omega

/-- The `[start, stop)` ranges the `cancel_all` loop scans, as a function
of the shrinking cursor. -/
def cancelBatches (stop : Nat) : List (Nat × Nat) :=
  if stop = 0 then []
  else (max stop MAX_LEN - MAX_LEN, stop) :: cancelBatches (stop - min stop MAX_LEN)
termination_by stop
decreasing_by
  simp only [MAX_LEN]
  omega

/-- Model of `self.id.fetch_add(1, Ordering::Relaxed)` on the manager's id
counter: returns the previous value and the incremented counter. -/
def fetch_add (ctr : Nat) : Nat × Nat := (ctr, ctr + 1)

/-- The two spawn entry points of `Manager`; `add` and the non-static
variant (`add_unsafe` in the source) allocate ids identically. -/
inductive AddKind where
  | add
  | addNonStatic
deriving DecidableEq, Repr

/-- The ids allocated by a sequence of `Manager::add` / `add_unsafe` calls
starting from counter value `ctr` (a fresh `Manager` has `ctr = 0`). -/
def allocIds (calls : List AddKind) (ctr : Nat) : List Nat :=
  match calls with
  | [] => []
  | _ :: rest => (fetch_add ctr).1 :: allocIds rest (fetch_add ctr).2

/-- Model of `SubCo::drop`, with the ambient "thread is unwinding" state
made explicit.  Translated from the source, whose whole body is
`if let Some(co) = self.co_map.remove(&self.id) { co.join(); }`: the
unwinding flag is never consulted.  Returns the new map and whether the
handle was joined. -/
def SubCo.drop (unwinding : Bool) (id : Nat) (m : CoMap) : CoMap × Bool :=
  match CoMap.remove m id with
  | (m1, some _) => (m1, true)
  | (m1, none) => (m1, false)

/-- Outcome of a `Manager::drop`: the trace of cancel requests issued, how
many `yield_now` iterations the drain loop ran, and whether the drop
returned (the real loop is unbounded; an exhausted fuel models a drop still
spinning). -/
structure DropResult where
  cancels : List RegOp
  yields : Nat
  finished : Bool
deriving DecidableEq, Repr

/-- The `while !self.co_map.is_empty() { coroutine::yield_now(); }` drain
loop: `emptyAt i` is what `is_empty` reports after `i` yields (children
remove themselves concurrently).  Returns the yield count at which the loop
observes an empty registry, bounded by `fuel`. -/
def drainLoop (emptyAt : Nat → Bool) : Nat → Nat → Option Nat
  | _, 0 => none
  | i, fuel + 1 => if emptyAt i then some i else drainLoop emptyAt (i + 1) fuel

/-- Model of `Manager::drop`: issue `cancel_all(id counter)`; then, only
when the thread is not panicking, drain until the registry reports
empty. -/
def Manager.drop (panicking : Bool) (ctr : Nat) (m : CoMap)
    (emptyAt : Nat → Bool) (fuel : Nat) : DropResult :=
  let ops := (CoMap.cancel_all m ctr).2
  if panicking then ⟨ops, 0, true⟩
  else
    match drainLoop emptyAt 0 fuel with
    | some i => ⟨ops, i, true⟩
    | none => ⟨ops, fuel, false⟩

/-- Joint state of one `Manager::add` (parent) racing the coroutine it
spawned (body plus `SubCo::drop`), for the allocated id.  `pcP` is the
parent's program counter: 0 before `go!`, 1 between `go!` and
`co_map.insert`, 2 after the insert — the source inserts AFTER spawning.
`pcC` is the child's: 0 not yet run, 1 body finished, 2 `SubCo::drop`
done.  `removeFound` records what the child's `remove` observed (`none`
while it has not yet run), `joined` whether the child joined the handle. -/
structure AddRace where
  pcP : Fin 3
  pcC : Fin 3
  mapHasId : Bool
  removeFound : Option Bool
  joined : Bool
deriving DecidableEq, Fintype, Repr

/-- Initial state: nothing spawned, id absent from the registry. -/
def AddRace.init : AddRace := ⟨0, 0, false, none, false⟩

/-- One parent step, in the source order of `Manager::add`: first
`go!(move || f(sub))` making the child runnable, then
`self.co_map.insert(id, co)`. -/
def stepParent (s : AddRace) : AddRace :=
  if s.pcP = 0 then { s with pcP := 1 }
  else if s.pcP = 1 then { s with pcP := 2, mapHasId := true }
  else s

/-- One child step, enabled only once spawned: run the body `f(sub)` to
completion, then `SubCo::drop` — remove the own id, join when found. -/
def stepChild (s : AddRace) : AddRace :=
  if s.pcP = 0 then s
  else if s.pcC = 0 then { s with pcC := 1 }
  else if s.pcC = 1 then
    { s with pcC := 2, removeFound := some s.mapHasId, mapHasId := false,
             joined := s.joined || s.mapHasId }
  else s

/-- Run an interleaving: `true` steps the parent, `false` the child. -/
def runAddRace (sched : List Bool) (s : AddRace) : AddRace :=
  match sched with
  | [] => s
  | c :: rest => runAddRace rest (if c then stepParent s else stepChild s)

/-- Reachability invariant of the add/teardown race. -/
def AddRace.inv (s : AddRace) : Prop :=
  (0 < s.pcC → 1 ≤ s.pcP) ∧
  (s.removeFound.isSome = true ↔ s.pcC = 2) ∧
  (s.removeFound = some true → s.pcP = 2) ∧
  (s.mapHasId = true ↔ (s.pcP = 2 ∧ (s.pcC ≤ 1 ∨ s.removeFound = some false))) ∧
  (s.joined = true ↔ s.removeFound = some true)

instance (s : AddRace) : Decidable (AddRace.inv s) := by
  unfold AddRace.inv
  infer_instance

/-- Strong reference count of every `Arc` allocation, indexed by its raw
address; `CoHandle` holds such an `Arc` around the coroutine join handle. -/
abbrev Heap := Nat → Nat

/-- Model of `Arc::new` (inside `CoHandle::new`): a fresh allocation at
address `a` with strong count 1. -/
def arcNew (h : Heap) (a : Nat) : Heap := fun b => if b = a then 1 else h b

/-- Model of `Arc::into_raw` (`From<CoHandle> for usize`, used by the map
to store the handle): the handle is released as its raw address; the
strong count is not touched. -/
def arcIntoRaw (a : Nat) : Nat := a

/-- Model of `Arc::from_raw` (`From<usize> for CoHandle`, used when the map
hands a stored value back): a handle is reconstituted from the raw
address; the strong count is not touched. -/
def arcFromRaw (r : Nat) : Nat := r

/-- Dropping an `Arc` handle decrements the strong count at its address. -/
def arcDrop (h : Heap) (a : Nat) : Heap := fun b => if b = a then h b - 1 else h b

/-- Model of `mem::forget`: the handle is discarded without running its
drop, so no count changes. -/
def forgetArc (h : Heap) (_ : Nat) : Heap := h

/-- The cancellation pattern of `cancel_all` for one scanned entry:
`let co = CoHandle::from(id.1); co.co.coroutine().cancel(); forget(co);`
(the cancel itself touches only the coroutine, never the count). -/
def cancelPattern (h : Heap) (raw : Nat) : Heap :=
  forgetArc h (arcFromRaw raw)

/-- Model of `CoHandle::join`:
`Arc::into_inner(self.co).expect("can\x27t get co from Arc")` followed by
`co.join().ok()`.  `into_inner` yields the join handle exactly when the
caller holds the unique strong reference; otherwise the `expect` panics. -/
def CoHandle.join (h : Heap) (a : Nat) : Except String Heap :=
  if h a = 1 then Except.ok (arcDrop h a)
  else Except.error "can\x27t get co from Arc"

/-- The normal self-teardown path for one handle: `CoMap::insert` wraps the
join handle in a fresh `Arc` (count 1) and stores it raw; `cancel_all` may
touch it with its from-then-forget pattern; `SubCo::drop`'s `remove`
reconstitutes the unique handle, which is then joined. -/
def selfTeardownJoin (h : Heap) (a : Nat) : Except String Heap :=
  CoHandle.join (cancelPattern (arcNew h a) (arcIntoRaw a)) (arcFromRaw (arcIntoRaw a))

theorem lookup_isSome_iff (m : CoMap) (id : Nat) :
    (m.lookup id).isSome = true ↔ id ∈ CoMap.keys m := by
  induction m with
  | nil => simp [CoMap.keys, List.lookup]
  | cons p rest ih =>
    by_cases h : id = p.1
    · simp [CoMap.keys, List.lookup, h]
    · have hb : (id == p.1) = false := by simp [h]
      simp [CoMap.keys, List.lookup, hb, h, ih]

theorem lookup_filter_ne (m : CoMap) (id : Nat) :
    (m.filter (fun e => e.1 != id)).lookup id = none := by
  induction m with
  | nil => simp
  | cons p rest ih =>
    by_cases h : p.1 = id
    · simp [h, ih]
    · have hb : (p.1 != id) = true := by simp [h]
      have hb2 : (id == p.1) = false := by
        simp only [beq_eq_false_iff_ne, ne_eq]
        omega
      simp [hb, List.lookup, hb2, ih]

/-- C7: `CoMap::remove` returns `Some` exactly when the id is present,
returns `None` leaving the map unchanged when absent, a second removal of
the same id always returns `None`, and consequently at most one of two
teardowns of the same id ever obtains the handle and joins it. -/
theorem coMap_remove_spec (m : CoMap) (id : Nat) :
    ((CoMap.remove m id).2.isSome = true ↔ id ∈ CoMap.keys m) ∧
    ((CoMap.remove m id).2 = none → (CoMap.remove m id).1 = m) ∧
    (CoMap.remove (CoMap.remove m id).1 id).2 = none ∧
    (∀ u u' : Bool, (SubCo.drop u' id (SubCo.drop u id m).1).2 = false) := by
  have hiff := lookup_isSome_iff m id
  rcases hl : m.lookup id with _ | h
  · refine ⟨?_, ?_, ?_, ?_⟩
    · rw [← hiff, hl]
      simp [CoMap.remove, hl]
    · intro _
      simp [CoMap.remove, hl]
    · simp [CoMap.remove, hl]
    · intro u u'
      simp [SubCo.drop, CoMap.remove, hl]
  · refine ⟨?_, ?_, ?_, ?_⟩
    · rw [← hiff, hl]
      simp [CoMap.remove, hl]
    · intro hc
      simp [CoMap.remove, hl] at hc
    · simp [CoMap.remove, hl, lookup_filter_ne]
    · intro u u'
      simp [SubCo.drop, CoMap.remove, hl, lookup_filter_ne]

/-- C6: ids are allocated by `fetch_add(1)` from 0, so any sequence of
`add` / `add_unsafe` calls on one `Manager` receives the ids
`0, 1, ..., n-1` in order: the n-th call gets id n-1, ids strictly
increase, and no id is ever reused. -/
theorem manager_ids_monotone (calls : List AddKind) :
    allocIds calls 0 = List.range calls.length ∧
    (allocIds calls 0).Nodup ∧ (allocIds calls 0).Pairwise (· < ·) := by
  have key : ∀ (cs : List AddKind) (ctr : Nat),
      allocIds cs ctr = List.range' ctr cs.length := by
    intro cs
    induction cs with
    | nil => intro ctr; simp [allocIds]
    | cons c rest ih =>
      intro ctr
      simp [allocIds, fetch_add, ih, List.range']
  have h0 : allocIds calls 0 = List.range calls.length := by
    rw [key, List.range_eq_range']
  refine ⟨h0, ?_, ?_⟩
  · rw [h0]; exact List.nodup_range _
  · rw [h0]; exact List.pairwise_lt_range _

/-- C3 (evaluating the code at the failing input): `SubCo::drop` never
consults the unwinding state — its behaviour is identical whether or not an
unwind is in progress — and on the unwinding path with the id still
registered it removes the entry and joins the handle. -/
theorem subCo_drop_joins_during_unwind :
    (∀ (id : Nat) (m : CoMap), SubCo.drop true id m = SubCo.drop false id m) ∧
    SubCo.drop true 0 [(0, 7)] = ([], true) := by
  exact ⟨fun id m => rfl, by decide⟩

theorem foldl_cancel_ops (l : CoMap) :
    ∀ m : CoMap, (l.map (fun e => RegOp.cancel e.1)).foldl applyOp m = m := by
  induction l with
  | nil => intro m; rfl
  | cons e rest ih => intro m; simpa [applyOp] using ih m

theorem cancel_all_zero (m : CoMap) : CoMap.cancel_all m 0 = (m, []) := by
  rw [CoMap.cancel_all]
  simp

theorem cancel_all_of_empty (m : CoMap) (stop : Nat)
    (he : CoMap.is_empty m = true) : CoMap.cancel_all m stop = (m, []) := by
  rw [CoMap.cancel_all]
  by_cases h0 : stop = 0 <;> simp [h0, he]

theorem cancel_all_eq (m : CoMap) (stop : Nat) (h0 : stop ≠ 0)
    (he : CoMap.is_empty m = false) :
    CoMap.cancel_all m stop =
      ((CoMap.cancel_all m (stop - min stop MAX_LEN)).1,
        (CoMap.range m (max stop MAX_LEN - MAX_LEN) stop).map
            (fun e => RegOp.cancel e.1)
          ++ (CoMap.cancel_all m (stop - min stop MAX_LEN)).2) := by
  conv_lhs => rw [CoMap.cancel_all]
  simp only [h0, he, if_false, Bool.false_eq_true, ite_false]
  rw [foldl_cancel_ops]

theorem cancel_all_preserves (m : CoMap) (stop : Nat) :
    (CoMap.cancel_all m stop).1 = m ∧
    ∀ op ∈ (CoMap.cancel_all m stop).2, isCancelOp op = true := by
  induction stop using Nat.strong_induction_on with
  | _ n ih =>
    by_cases h0 : n = 0
    · subst h0; simp [cancel_all_zero]
    · by_cases he : CoMap.is_empty m
      · rw [cancel_all_of_empty m n he]; simp
      · have he' : CoMap.is_empty m = false := by simpa using he
        rw [cancel_all_eq m n h0 he']
        have hlt : n - min n MAX_LEN < n := by simp only [MAX_LEN]; omega
        obtain ⟨ha, hb⟩ := ih _ hlt
        refine ⟨ha, ?_⟩
        intro op hop
        rcases List.mem_append.mp hop with hop | hop
        · obtain ⟨e, _, rfl⟩ := List.mem_map.mp hop
          rfl
        · exact hb op hop

/-- C5: `CoMap::cancel_all` never mutates the registry: the map after any
execution equals the map before, and every operation it performs is a
cancel request — no insert, no remove, no join. -/
theorem cancel_all_no_mutation (m : CoMap) (stop : Nat) :
    (CoMap.cancel_all m stop).1 = m ∧
    ((CoMap.cancel_all m stop).2.all isCancelOp) = true := by
  obtain ⟨ha, hb⟩ := cancel_all_preserves m stop
  exact ⟨ha, List.all_eq_true.mpr hb⟩

theorem length_filter_range_le (m : CoMap) (hnd : (CoMap.keys m).Nodup)
    (s t : Nat) :
    (m.filter (fun e => decide (s ≤ e.1) && decide (e.1 < t))).length ≤ t - s := by
  classical
  set l := (m.filter (fun e => decide (s ≤ e.1) && decide (e.1 < t))).map Prod.fst
    with hl
  have hsub : l.Sublist (CoMap.keys m) := (List.filter_sublist m).map Prod.fst
  have hnd2 : l.Nodup := hsub.nodup hnd
  have hmem : l.toFinset ⊆ Finset.Ico s t := by
    intro x hx
    rw [List.mem_toFinset] at hx
    rw [hl] at hx
    obtain ⟨e, hef, rfl⟩ := List.mem_map.mp hx
    obtain ⟨_, hcond⟩ := List.mem_filter.mp hef
    simp only [Bool.and_eq_true, decide_eq_true_eq] at hcond
    exact Finset.mem_Ico.mpr hcond
  have hcard : l.toFinset.card ≤ t - s := by
    calc l.toFinset.card ≤ (Finset.Ico s t).card := Finset.card_le_card hmem
    _ = t - s := Nat.card_Ico s t
  rw [List.toFinset_card_of_nodup hnd2] at hcard
  calc (m.filter (fun e => decide (s ≤ e.1) && decide (e.1 < t))).length
      = l.length := (List.length_map _ _).symm
  _ ≤ t - s := hcard

theorem range_no_truncation (m : CoMap) (hnd : (CoMap.keys m).Nodup)
    (stop : Nat) :
    CoMap.range m (max stop MAX_LEN - MAX_LEN) stop =
      m.filter (fun e =>
        decide (max stop MAX_LEN - MAX_LEN ≤ e.1) && decide (e.1 < stop)) := by
  unfold CoMap.range
  apply List.take_of_length_le
  calc (m.filter _).length ≤ stop - (max stop MAX_LEN - MAX_LEN) :=
        length_filter_range_le m hnd _ _
  _ ≤ MAX_LEN := by simp only [MAX_LEN]; omega

theorem cancelBatches_zero : cancelBatches 0 = [] := by
  rw [cancelBatches]
  simp

theorem cancelBatches_width (stop : Nat) :
    ∀ b ∈ cancelBatches stop, b.2 - b.1 ≤ MAX_LEN := by
  induction stop using Nat.strong_induction_on with
  | _ n ih =>
    by_cases h0 : n = 0
    · subst h0; rw [cancelBatches_zero]; simp
    · rw [cancelBatches, if_neg h0]
      intro b hb
      rcases List.mem_cons.mp hb with rfl | hb
      · simp only [MAX_LEN]; omega
      · exact ih (n - min n MAX_LEN) (by simp only [MAX_LEN]; omega) b hb

theorem cancelBatches_cover (stop : Nat) :
    ∀ id, id < stop → ∃ b ∈ cancelBatches stop, b.1 ≤ id ∧ id < b.2 := by
  induction stop using Nat.strong_induction_on with
  | _ n ih =>
    intro id hid
    have h0 : n ≠ 0 := by omega
    rw [cancelBatches, if_neg h0]
    by_cases hge : max n MAX_LEN - MAX_LEN ≤ id
    · exact ⟨(max n MAX_LEN - MAX_LEN, n), List.mem_cons_self _ _, hge, hid⟩
    · push_neg at hge
      have hid' : id < n - min n MAX_LEN := by simp only [MAX_LEN] at *; omega
      obtain ⟨b, hb, h1, h2⟩ :=
        ih (n - min n MAX_LEN) (by simp only [MAX_LEN]; omega) id hid'
      exact ⟨b, List.mem_cons_of_mem _ hb, h1, h2⟩

theorem cancel_all_complete (stop : Nat) :
    ∀ m : CoMap, (CoMap.keys m).Nodup →
      ∀ e ∈ m, e.1 < stop → RegOp.cancel e.1 ∈ (CoMap.cancel_all m stop).2 := by
  induction stop using Nat.strong_induction_on with
  | _ n ih =>
    intro m hnd e hem hlt
    have h0 : n ≠ 0 := by omega
    have hne : CoMap.is_empty m = false := by
      cases m with
      | nil => cases hem
      | cons p rest => rfl
    rw [cancel_all_eq m n h0 hne]
    rw [List.mem_append]
    by_cases hge : max n MAX_LEN - MAX_LEN ≤ e.1
    · left
      rw [range_no_truncation m hnd n]
      refine List.mem_map.mpr ⟨e, List.mem_filter.mpr ⟨hem, ?_⟩, rfl⟩
      simp [hge, hlt]
    · right
      push_neg at hge
      have hlt' : e.1 < n - min n MAX_LEN := by simp only [MAX_LEN] at *; omega
      exact ih (n - min n MAX_LEN) (by simp only [MAX_LEN]; omega) m hnd e hem hlt'

/-- C2: with the id counter at `stop` at teardown, the batch ranges the
`cancel_all` loop scans are each no wider than the 64-entry buffer,
together they cover every id in `[0, stop)`, and consequently every entry
live at scan start (all live ids are below the counter) is issued a cancel
request. -/
theorem cancel_all_batch_coverage (stop : Nat) (m : CoMap)
    (hnd : (CoMap.keys m).Nodup) (hlt : ∀ e ∈ m, e.1 < stop) :
    (∀ b ∈ cancelBatches stop, b.2 - b.1 ≤ MAX_LEN) ∧
    (∀ id, id < stop → ∃ b ∈ cancelBatches stop, b.1 ≤ id ∧ id < b.2) ∧
    (∀ e ∈ m, RegOp.cancel e.1 ∈ (CoMap.cancel_all m stop).2) :=
  ⟨cancelBatches_width stop, cancelBatches_cover stop,
    fun e he => cancel_all_complete stop m hnd e he (hlt e he)⟩

theorem cancel_all_batch_coverage_witness :
    (∀ b ∈ cancelBatches 70, b.2 - b.1 ≤ MAX_LEN) ∧
    (∀ id, id < 70 → ∃ b ∈ cancelBatches 70, b.1 ≤ id ∧ id < b.2) ∧
    (∀ e ∈ ([(69, 11), (0, 10)] : CoMap),
      RegOp.cancel e.1 ∈ (CoMap.cancel_all [(69, 11), (0, 10)] 70).2) :=
  cancel_all_batch_coverage 70 [(69, 11), (0, 10)] (by decide) (by decide)

theorem drainLoop_eq_some (emptyAt : Nat → Bool) :
    ∀ fuel i j : Nat, drainLoop emptyAt i fuel = some j → emptyAt j = true := by
  intro fuel
  induction fuel with
  | zero => intro i j h; simp [drainLoop] at h
  | succ n ih =>
    intro i j h
    by_cases he : emptyAt i
    · rw [drainLoop, if_pos he] at h
      obtain rfl : i = j := by injection h
      exact he
    · rw [drainLoop, if_neg he] at h
      exact ih _ _ h

theorem manager_drop_cancels (panicking : Bool) (ctr : Nat) (m : CoMap)
    (emptyAt : Nat → Bool) (fuel : Nat) :
    (Manager.drop panicking ctr m emptyAt fuel).cancels =
      (CoMap.cancel_all m ctr).2 := by
  unfold Manager.drop
  cases panicking
  · rcases h : drainLoop emptyAt 0 fuel with _ | i <;> simp [h]
  · simp

/-- C4: on `Manager` destruction, cancel requests are issued to every live
entry; when the destruction happens during an unwind the drain loop runs
zero yield iterations; otherwise, whenever the drop returns, the registry
reported empty at the yield count on which the loop exited. -/
theorem manager_drop_spec (panicking : Bool) (ctr : Nat) (m : CoMap)
    (emptyAt : Nat → Bool) (fuel : Nat)
    (hnd : (CoMap.keys m).Nodup) (hlt : ∀ e ∈ m, e.1 < ctr) :
    (∀ e ∈ m, RegOp.cancel e.1 ∈
      (Manager.drop panicking ctr m emptyAt fuel).cancels) ∧
    (panicking = true → (Manager.drop panicking ctr m emptyAt fuel).yields = 0) ∧
    (panicking = false → (Manager.drop panicking ctr m emptyAt fuel).finished = true →
      emptyAt (Manager.drop panicking ctr m emptyAt fuel).yields = true) := by
  refine ⟨?_, ?_, ?_⟩
  · intro e he
    rw [manager_drop_cancels]
    exact cancel_all_complete ctr m hnd e he (hlt e he)
  · intro hp
    subst hp
    simp [Manager.drop]
  · intro hp hf
    subst hp
    unfold Manager.drop at hf ⊢
    rcases h : drainLoop emptyAt 0 fuel with _ | i
    · simp [h] at hf
    · simp only [h, Bool.false_eq_true, if_false, ite_false]
      exact drainLoop_eq_some emptyAt fuel 0 i h

theorem manager_drop_spec_witness :
    (∀ e ∈ ([(0, 5)] : CoMap), RegOp.cancel e.1 ∈
      (Manager.drop false 1 [(0, 5)] (fun _ => true) 1).cancels) ∧
    (false = true → (Manager.drop false 1 [(0, 5)] (fun _ => true) 1).yields = 0) ∧
    (false = false →
      (Manager.drop false 1 [(0, 5)] (fun _ => true) 1).finished = true →
      (fun _ => true : Nat → Bool)
        (Manager.drop false 1 [(0, 5)] (fun _ => true) 1).yields = true) :=
  manager_drop_spec false 1 [(0, 5)] (fun _ => true) 1 (by decide) (by decide)

/-- C10: dropping a `Manager` on which no task was ever added is a no-op
teardown: `cancel_all(0)` enters its loop body zero times (no scan batch,
no cancel request, the map is returned untouched for any contents), and on
the non-panicking path the drain loop exits at its very first emptiness
check with zero yields. -/
theorem fresh_manager_drop_noop :
    (∀ m : CoMap, CoMap.cancel_all m 0 = (m, [])) ∧
    cancelBatches 0 = [] ∧
    (∀ fuel : Nat, Manager.drop false 0 [] (fun _ => true) (fuel + 1) =
      ⟨[], 0, true⟩) := by
  refine ⟨cancel_all_zero, cancelBatches_zero, fun fuel => ?_⟩
  unfold Manager.drop
  simp [cancel_all_zero, drainLoop]

theorem addRace_inv_init : AddRace.inv AddRace.init := by decide

theorem addRace_inv_step :
    ∀ s : AddRace, AddRace.inv s →
      AddRace.inv (stepParent s) ∧ AddRace.inv (stepChild s) := by
  decide

theorem addRace_inv_run (sched : List Bool) :
    ∀ s : AddRace, AddRace.inv s → AddRace.inv (runAddRace sched s) := by
  induction sched with
  | nil => intro s hs; exact hs
  | cons c rest ih =>
    intro s hs
    cases c
    · exact ih _ (addRace_inv_step s hs).2
    · exact ih _ (addRace_inv_step s hs).1

/-- C1 counterexample: under the interleaving parent-spawn, child-body,
child-drop, parent-insert, both the parent's `add` and the child's teardown
complete, yet the child's `remove` ran ahead of the insert (it observed the
id absent), nothing was joined, and the insert afterwards left a stale
entry for the already-finished coroutine in the registry. -/
theorem add_insert_race_window :
    (runAddRace [true, false, false, true] AddRace.init).pcP = 2 ∧
    (runAddRace [true, false, false, true] AddRace.init).pcC = 2 ∧
    (runAddRace [true, false, false, true] AddRace.init).removeFound = some false ∧
    (runAddRace [true, false, false, true] AddRace.init).mapHasId = true ∧
    (runAddRace [true, false, false, true] AddRace.init).joined = false := by
  decide

/-- C1 amended: in `Manager::add` the spawn precedes the insert, so the
insert does NOT happen-before the id is observable by the child; for every
interleaving in which both the parent's `add` and the child's teardown
complete, a stale entry remains in the registry exactly when the child's
self-remove ran ahead of the insert (observed the id absent), and the
handle was joined exactly when the insert came first. -/
theorem add_insert_race_dichotomy (sched : List Bool)
    (hp : (runAddRace sched AddRace.init).pcP = 2)
    (hc : (runAddRace sched AddRace.init).pcC = 2) :
    ((runAddRace sched AddRace.init).mapHasId = true ↔
      (runAddRace sched AddRace.init).removeFound = some false) ∧
    ((runAddRace sched AddRace.init).joined = true ↔
      (runAddRace sched AddRace.init).removeFound = some true) := by
  have hinv := addRace_inv_run sched AddRace.init addRace_inv_init
  revert hinv hp hc
  generalize runAddRace sched AddRace.init = s
  revert s
  decide

theorem add_insert_race_dichotomy_witness :
    ((runAddRace [true, true, false, false] AddRace.init).mapHasId = true ↔
      (runAddRace [true, true, false, false] AddRace.init).removeFound = some false) ∧
    ((runAddRace [true, true, false, false] AddRace.init).joined = true ↔
      (runAddRace [true, true, false, false] AddRace.init).removeFound = some true) :=
  add_insert_race_dichotomy [true, true, false, false] (by decide) (by decide)

/-- C8: the two `CoHandle`/`usize` conversions are mutually inverse — a
round trip returns a handle holding the same underlying `Arc` pointer —
and the from-then-forget pattern of `cancel_all` leaves every strong count
unchanged, unlike an ordinary handle drop, which decrements the count at
the handle's address. -/
theorem coHandle_usize_roundtrip (h : Heap) (a raw : Nat) :
    arcFromRaw (arcIntoRaw a) = a ∧
    arcIntoRaw (arcFromRaw raw) = raw ∧
    cancelPattern h raw = h ∧
    arcDrop h a a = h a - 1 := by
  refine ⟨rfl, rfl, rfl, ?_⟩
  simp [arcDrop]

/-- C9: `CoHandle::join` succeeds exactly when the caller holds the unique
strong reference; with more than one holder it panics with
"can\x27t get co from Arc"; and on the self-teardown path — the handle
freshly created by `insert` and just obtained from `remove` — uniqueness
holds, so the join succeeds and the panic branch is unreachable. -/
theorem coHandle_join_unique_spec :
    (∀ (h : Heap) (a : Nat), (CoHandle.join h a).isOk = true ↔ h a = 1) ∧
    (∀ (h : Heap) (a : Nat), 1 < h a →
      CoHandle.join h a = Except.error "can\x27t get co from Arc") ∧
    (∀ (h : Heap) (a : Nat), (selfTeardownJoin h a).isOk = true) := by
  refine ⟨fun h a => ?_, fun h a hgt => ?_, fun h a => ?_⟩
  · by_cases h1 : h a = 1 <;> simp [CoHandle.join, h1, Except.isOk, Except.toBool]
  · have h1 : h a ≠ 1 := by omega
    simp [CoHandle.join, h1]
  · simp [selfTeardownJoin, cancelPattern, forgetArc, arcFromRaw, arcIntoRaw,
      CoHandle.join, arcNew, Except.isOk, Except.toBool]

end CoManaged
